import Mathlib

/-!
Shallow embedding of the RSS→Telegram bot in `src/main.py`.

The synchronization engine (`process_feed`, `send_item`, `scheduler`) is
modelled as pure state-passing functions.  A feed item carries the fields
the code reads from the XML: `link` (Python treats a missing `<link>`
element and one whose stripped text is empty/falsy the same way, so both
are `none` here), `title`, the preferred `full-text` / fallback
`description` content, and an optional enclosure URL.

The engine state tracks the dedup store (`posts` table: list of recorded
links, in insertion order), the sequence of sink invocations (`calls`:
every time `send_item` reaches `bot.send_photo`/`bot.send_message`), and
the sequence of successful deliveries (`delivered`).  The delivery sink's
behaviour is an oracle `ok : Nat → String → Bool` indexed by the global
sink-call counter (`calls.length`), so a link may fail transiently and
succeed later, exactly as an external sink may.

In this pure model the store is always available and every store
operation succeeds (callers pre-check `post_exists` before `add_post`, so
the duplicate-insert path never fires in-flow).  A second, exception-aware
model (`addPostE`, `sendItemE`, `processFeedE`, `schedulerRunE`) appears
further down for the store-failure claims: there the sqlite layer can
raise (duplicate PRIMARY KEY insert, unavailable database), `send_item`'s
`try/except` absorbs every exception, and `process_feed` / `scheduler`
have no handler, so store errors raised outside `send_item` propagate.
-/

/-- One parsed `<item>` of the feed, with the fields `send_item` and
`process_feed` read.  `link = none` models both an absent `<link>` and an
empty (falsy) stripped text. -/
structure Item where
  link : Option String
  title : Option String
  fullText : Option String
  description : Option String
  enclosure : Option String
deriving Repr, DecidableEq

/-- Engine state: the dedup store (`posts` table), the list of sink
invocations made so far (links, in call order), and the list of
successful deliveries (links, in delivery order). -/
structure EngState where
  store : List String
  calls : List String
  delivered : List String
deriving Repr, DecidableEq

/-- The empty initial state (fresh `rss_posts.db`). -/
def initState : EngState := ⟨[], [], []⟩

/-- Model of `send_item(item)` from `src/main.py` (lines 97–155), effects only:
if the item has a (truthy) link, invoke the sink; on sink success run
`add_post(link)` and record the delivery; on sink failure the
`try/except` catches the error, so nothing is recorded. -/
def sendItem (ok : Nat → String → Bool) (s : EngState) (it : Item) : EngState :=
  match it.link with
  | none => s
  | some l =>
    if ok s.calls.length l then
      { store := s.store ++ [l], calls := s.calls ++ [l], delivered := s.delivered ++ [l] }
    else
      { s with calls := s.calls ++ [l] }

/-- One step of the bootstrap backlog-marking loop (`process_feed` lines
181–184): record the link without delivering, skipping items already in
the store and items without a link. -/
def markStep (s : EngState) (it : Item) : EngState :=
  match it.link with
  | none => s
  | some l => if l ∈ s.store then s else { s with store := s.store ++ [l] }

/-- One step of the steady loop (`process_feed` lines 188–196): skip a
missing link, skip an already-recorded link, otherwise `send_item`. -/
def steadyStep (ok : Nat → String → Bool) (s : EngState) (it : Item) : EngState :=
  match it.link with
  | none => s
  | some l => if l ∈ s.store then s else sendItem ok s it

/-- Model of `process_feed(first_run)` from `src/main.py` (lines 157–196) on an
already-fetched, already-parsed item sequence (newest-first, as the
source delivers it).  An empty sequence leaves the state unchanged; a
failed fetch has the same effect and is modelled by the empty sequence.

Bootstrap (`first_run=True`): send only the newest item `items[0]`, and
only if its link is truthy and not yet recorded; then mark every item of
the whole sequence whose link is not yet in the store.

Steady: walk the sequence in reversed (oldest-to-newest) order with
`steadyStep`. -/
def processFeed (ok : Nat → String → Bool) (firstRun : Bool) (items : List Item)
    (s : EngState) : EngState :=
  match items with
  | [] => s
  | it0 :: _ =>
    if firstRun then
      let s1 := match it0.link with
        | none => s
        | some l => if l ∈ s.store then s else sendItem ok s it0
      items.foldl markStep s1
    else
      items.reverse.foldl (steadyStep ok) s

/-- The scheduler loop (`src/main.py` lines 198–205), unrolled over a
finite list of fetched feeds, one per poll cycle.  `first_run` is true
for the first cycle only and flips to false unconditionally afterwards,
exactly as in `scheduler`. -/
def run (ok : Nat → String → Bool) : List (List Item) → Bool → EngState → EngState
  | [], _, s => s
  | f :: fs, fr, s => run ok fs false (processFeed ok fr f s)

/-! Message construction (`send_item`, lines 122–131).

`html.escape` (with its default `quote=True`) performs the sequential
replacements `& → &amp;`, `< → &lt;`, `> → &gt;`, `" → &quot;`,
`' → &#x27;`.  Because `&` is replaced first and no later replacement
target occurs in an earlier replacement's output, the sequential
replacement equals the per-character map below.  Python string length and
slicing count code points, modelled below over `String.data`. -/

/-- The replacement `html.escape` applies to a single character
(`Char.ofNat 39` is the single-quote character). -/
def escapeChar (c : Char) : String :=
  if c = '&' then "&amp;"
  else if c = '<' then "&lt;"
  else if c = '>' then "&gt;"
  else if c = '"' then "&quot;"
  else if c = Char.ofNat 39 then "&#x27;"
  else String.singleton c

/-- Application of `html.escape` over a character list, character by character. -/
def escapeList : List Char → List Char
  | [] => []
  | c :: cs => (escapeChar c).data ++ escapeList cs

/-- Escape of a string: `html.escape(s)` as the program uses it on title and body text. -/
def escape (s : String) : String :=
  ⟨escapeList s.data⟩

/-- The body-truncation expression of line 128:
`f"{safe_text[:900]}..." if len(safe_text) > 900 else safe_text`.
Python string length and slicing count code points, so `[:900]` is
`data.take 900`. -/
def truncBody (s : String) : String :=
  if s.length > 900 then ⟨s.data.take 900⟩ ++ "..." else s

/-- The message built by `send_item` lines 127–131 from the raw title,
the normalizer's output text, the raw item link, and the optional
`MONOBANK_LINK`.  Title and body go through `escape`; the two URLs are
interpolated verbatim into the `href` attributes. -/
def messageOf (title text link : String) (mono : Option String) : String :=
  "<b>" ++ escape title ++ "</b>\n\n"
    ++ truncBody (escape text)
    ++ "\n\n<a href=\"" ++ link ++ "\">Посилання</a>"
    ++ match mono with
       | some m => " | <a href=\"" ++ m ++ "\">Підтримати</a>"
       | none => ""

/-! Predicates and auxiliary models used by the verification below:
the dedup invariant, the markup-safety predicates on escaped text, and
the exception-aware store model described in the header. -/

/-- Dedup invariant: no duplicate records, no duplicate successful
deliveries, and every delivered link is recorded. -/
def DedupInv (s : EngState) : Prop :=
  s.store.Nodup ∧ s.delivered.Nodup ∧ ∀ l ∈ s.delivered, l ∈ s.store

/-- No raw angle bracket: no character of the list can open or close an
HTML tag. -/
def noAngle (l : List Char) : Bool :=
  l.all (fun c => !(c == '<') && !(c == '>'))

/-- Every ampersand in the list starts one of the five entities
`html.escape` emits: the list is a concatenation of blocks, each either a
full emitted entity or a single non-`&` character.  No stray `&` and no
re-interpretable markup remains. -/
inductive EntitySafe : List Char → Prop
  | nil : EntitySafe []
  | amp {r : List Char} : EntitySafe r → EntitySafe ('&' :: 'a' :: 'm' :: 'p' :: ';' :: r)
  | lt {r : List Char} : EntitySafe r → EntitySafe ('&' :: 'l' :: 't' :: ';' :: r)
  | gt {r : List Char} : EntitySafe r → EntitySafe ('&' :: 'g' :: 't' :: ';' :: r)
  | quot {r : List Char} :
      EntitySafe r → EntitySafe ('&' :: 'q' :: 'u' :: 'o' :: 't' :: ';' :: r)
  | apos {r : List Char} :
      EntitySafe r → EntitySafe ('&' :: '#' :: 'x' :: '2' :: '7' :: ';' :: r)
  | plain {c : Char} {r : List Char} : c ≠ '&' → EntitySafe r → EntitySafe (c :: r)

/-- Store state for the exception-aware model: the `posts` table plus a
counter of store-operation attempts, which indexes the availability
oracle. -/
structure EStore where
  store : List String
  ops : Nat
deriving Repr, DecidableEq

/-- Model of `post_exists(link)` (lines 40–43): raises when the database is
unavailable, otherwise reports membership. -/
def postExistsE (avail : Nat → Bool) (st : EStore) (l : String) :
    Except String (Bool × EStore) :=
  if avail st.ops then Except.ok (decide (l ∈ st.store), { st with ops := st.ops + 1 })
  else Except.error "store unavailable"

/-- Model of `add_post(link)` (lines 45–48): raises when the database is
unavailable; a plain `INSERT` into a table whose `link` column is the
PRIMARY KEY raises an integrity error when the link is already present
(the code never uses `INSERT OR IGNORE`). -/
def addPostE (avail : Nat → Bool) (st : EStore) (l : String) : Except String EStore :=
  if avail st.ops then
    if l ∈ st.store then Except.error "IntegrityError: duplicate link"
    else Except.ok { store := st.store ++ [l], ops := st.ops + 1 }
  else Except.error "store unavailable"

/-- Model of `send_item` in the exception-aware world: its `try/except` wraps the
sink call and the `add_post`, so it never propagates an error — a store
failure after a successful send is caught and logged, leaving the record
unwritten. -/
def sendItemE (avail : Nat → Bool) (ok : String → Bool) (st : EStore) (it : Item) : EStore :=
  match it.link with
  | none => st
  | some l =>
    if ok l then
      match addPostE avail st l with
      | Except.ok st2 => st2
      | Except.error _ => { st with ops := st.ops + 1 }
    else st

/-- The bootstrap backlog-marking loop (lines 181–184) with store
errors: the `post_exists`/`add_post` calls sit directly in
`process_feed`, outside any `try`, so their errors propagate. -/
def markAllE (avail : Nat → Bool) : List Item → EStore → Except String EStore
  | [], st => Except.ok st
  | it :: rest, st =>
    match it.link with
    | none => markAllE avail rest st
    | some l =>
      match postExistsE avail st l with
      | Except.error e => Except.error e
      | Except.ok (b, st1) =>
        if b then markAllE avail rest st1
        else
          match addPostE avail st1 l with
          | Except.error e => Except.error e
          | Except.ok st2 => markAllE avail rest st2

/-- The steady loop (lines 188–196) with store errors: the
`post_exists` check sits outside any `try`, so its errors propagate;
`send_item` itself absorbs errors. -/
def steadyE (avail : Nat → Bool) (ok : String → Bool) :
    List Item → EStore → Except String EStore
  | [], st => Except.ok st
  | it :: rest, st =>
    match it.link with
    | none => steadyE avail ok rest st
    | some l =>
      match postExistsE avail st l with
      | Except.error e => Except.error e
      | Except.ok (b, st1) =>
        if b then steadyE avail ok rest st1
        else steadyE avail ok rest (sendItemE avail ok st1 it)

/-- Model of `process_feed` with store errors (no handler of its own). -/
def processFeedE (avail : Nat → Bool) (ok : String → Bool) (fr : Bool) (items : List Item)
    (st : EStore) : Except String EStore :=
  match items with
  | [] => Except.ok st
  | it0 :: _ =>
    if fr then
      match (match it0.link with
             | none => Except.ok st
             | some l =>
               match postExistsE avail st l with
               | Except.error e => Except.error e
               | Except.ok (b, st1) =>
                 Except.ok (if b then st1 else sendItemE avail ok st1 it0)) with
      | Except.error e => Except.error e
      | Except.ok st1 => markAllE avail items st1
    else steadyE avail ok items.reverse st

/-- The scheduler loop (lines 198–205) with store errors: the `while
True` body has no `try/except`, so an error from `process_feed`
terminates the loop — subsequent cycles do not run. -/
def schedulerRunE (avail : Nat → Bool) (ok : String → Bool) :
    List (List Item) → Bool → EStore → Except String EStore
  | [], _, st => Except.ok st
  | f :: fs, fr, st =>
    match processFeedE avail ok fr f st with
    | Except.error e => Except.error e
    | Except.ok st1 => schedulerRunE avail ok fs false st1

/-- Concrete sample item used by witnesses. -/
def itemA : Item := ⟨some "a", some "T1", none, none, none⟩

/-- Concrete sample item with an image enclosure, used by witnesses. -/
def itemB : Item := ⟨some "b", none, none, none, some "http://img"⟩

set_option maxRecDepth 40000

lemma foldl_pres {α : Type} (P : EngState → Prop) (f : EngState → α → EngState)
    (hf : ∀ s a, P s → P (f s a)) :
    ∀ (l : List α) (s : EngState), P s → P (l.foldl f s) := by
  intro l
  induction l with
  | nil => intro s h; exact h
  | cons a l ih => intro s h; exact ih _ (hf s a h)

lemma nodup_append_single {l : List String} {a : String} (h : l.Nodup) (ha : a ∉ l) :
    (l ++ [a]).Nodup := by
  rw [List.nodup_append]
  refine ⟨h, List.nodup_singleton a, ?_⟩
  intro x hx hxa
  rw [List.mem_singleton] at hxa
  exact ha (hxa ▸ hx)

lemma sendItem_dedupInv {ok s it} (h : DedupInv s)
    (hnew : ∀ l, it.link = some l → l ∉ s.store) :
    DedupInv (sendItem ok s it) := by
  obtain ⟨h1, h2, h3⟩ := h
  cases hL : it.link with
  | none => simpa [sendItem, hL] using ⟨h1, h2, h3⟩
  | some l =>
    have hls : l ∉ s.store := hnew l hL
    by_cases hok : ok s.calls.length l
    · simp only [sendItem, hL, hok, if_true]
      refine ⟨nodup_append_single h1 hls, nodup_append_single h2 (fun hx => hls (h3 l hx)), ?_⟩
      intro x hx
      rcases List.mem_append.mp hx with hx | hx
      · exact List.mem_append.mpr (Or.inl (h3 x hx))
      · exact List.mem_append.mpr (Or.inr hx)
    · simpa [sendItem, hL, hok] using ⟨h1, h2, h3⟩

lemma markStep_dedupInv {s it} (h : DedupInv s) : DedupInv (markStep s it) := by
  obtain ⟨h1, h2, h3⟩ := h
  cases hL : it.link with
  | none => simpa [markStep, hL] using ⟨h1, h2, h3⟩
  | some l =>
    by_cases hm : l ∈ s.store
    · simpa [markStep, hL, hm] using ⟨h1, h2, h3⟩
    · simp only [markStep, hL, hm, if_false]
      refine ⟨nodup_append_single h1 hm, h2, ?_⟩
      intro x hx
      exact List.mem_append.mpr (Or.inl (h3 x hx))

lemma steadyStep_dedupInv {ok s it} (h : DedupInv s) : DedupInv (steadyStep ok s it) := by
  cases hL : it.link with
  | none => simpa [steadyStep, hL] using h
  | some l =>
    by_cases hm : l ∈ s.store
    · simpa [steadyStep, hL, hm] using h
    · simp only [steadyStep, hL, hm, if_false]
      exact sendItem_dedupInv h (by intro x hx; rw [hL] at hx; cases hx; exact hm)

lemma processFeed_dedupInv {ok fr items s} (h : DedupInv s) :
    DedupInv (processFeed ok fr items s) := by
  cases items with
  | nil => simpa [processFeed] using h
  | cons it0 rest =>
    by_cases hfr : fr
    · simp only [processFeed, hfr, if_true]
      apply foldl_pres DedupInv markStep (fun s a => markStep_dedupInv)
      cases hL : it0.link with
      | none => simpa [hL] using h
      | some l =>
        by_cases hm : l ∈ s.store
        · simpa [hL, hm] using h
        · simp only [hL, hm, if_false]
          exact sendItem_dedupInv h (by intro x hx; rw [hL] at hx; cases hx; exact hm)
    · simp only [processFeed, hfr, if_false]
      exact foldl_pres DedupInv (steadyStep ok) (fun s a => steadyStep_dedupInv) _ _ h

lemma run_dedupInv {ok feeds fr s} (h : DedupInv s) : DedupInv (run ok feeds fr s) := by
  induction feeds generalizing fr s with
  | nil => simpa [run] using h
  | cons f fs ih => exact ih (processFeed_dedupInv h)

lemma markStep_calls (s : EngState) (it : Item) : (markStep s it).calls = s.calls := by
  cases hL : it.link with
  | none => simp [markStep, hL]
  | some l => by_cases hm : l ∈ s.store <;> simp [markStep, hL, hm]

lemma markStep_delivered (s : EngState) (it : Item) : (markStep s it).delivered = s.delivered := by
  cases hL : it.link with
  | none => simp [markStep, hL]
  | some l => by_cases hm : l ∈ s.store <;> simp [markStep, hL, hm]

lemma markFold_calls (items : List Item) (s : EngState) :
    (items.foldl markStep s).calls = s.calls := by
  induction items generalizing s with
  | nil => rfl
  | cons a tl ih => rw [List.foldl_cons, ih, markStep_calls]

lemma markFold_delivered (items : List Item) (s : EngState) :
    (items.foldl markStep s).delivered = s.delivered := by
  induction items generalizing s with
  | nil => rfl
  | cons a tl ih => rw [List.foldl_cons, ih, markStep_delivered]

lemma markStep_store_mono (s : EngState) (it : Item) : s.store ⊆ (markStep s it).store := by
  cases hL : it.link with
  | none => simp [markStep, hL]
  | some l =>
    by_cases hm : l ∈ s.store
    · simp [markStep, hL, hm]
    · simp only [markStep, hL, hm, if_false]
      exact fun x hx => List.mem_append.mpr (Or.inl hx)

lemma sendItem_store_mono (ok : Nat → String → Bool) (s : EngState) (it : Item) :
    s.store ⊆ (sendItem ok s it).store := by
  cases hL : it.link with
  | none => simp [sendItem, hL]
  | some l =>
    by_cases hok : ok s.calls.length l
    · simp only [sendItem, hL, hok, if_true]
      exact fun x hx => List.mem_append.mpr (Or.inl hx)
    · simp [sendItem, hL, hok]

lemma steadyStep_store_mono (ok : Nat → String → Bool) (s : EngState) (it : Item) :
    s.store ⊆ (steadyStep ok s it).store := by
  cases hL : it.link with
  | none => simp [steadyStep, hL]
  | some l =>
    by_cases hm : l ∈ s.store
    · simp [steadyStep, hL, hm]
    · simp only [steadyStep, hL, hm, if_false]
      exact sendItem_store_mono ok s it

lemma foldl_store_mono {α : Type} (f : EngState → α → EngState)
    (hf : ∀ (s : EngState) (a : α), s.store ⊆ (f s a).store) :
    ∀ (l : List α) (s : EngState), s.store ⊆ (l.foldl f s).store := by
  intro l
  induction l with
  | nil => intro s; exact fun x hx => hx
  | cons a tl ih => intro s; exact fun x hx => ih (f s a) (hf s a hx)

lemma processFeed_store_mono (ok : Nat → String → Bool) (fr : Bool) (items : List Item)
    (s : EngState) : s.store ⊆ (processFeed ok fr items s).store := by
  cases items with
  | nil => simp [processFeed]
  | cons it0 rest =>
    by_cases hfr : fr
    · simp only [processFeed, hfr, if_true]
      refine Set.Subset.trans ?_ (foldl_store_mono markStep markStep_store_mono _ _)
      cases hL : it0.link with
      | none => simp
      | some l =>
        by_cases hm : l ∈ s.store
        · simp [hL, hm]
        · simp only [hL, hm, if_false]
          exact sendItem_store_mono ok s it0
    · simp only [processFeed, hfr, if_false]
      exact foldl_store_mono (steadyStep ok) (steadyStep_store_mono ok) _ _

lemma run_store_mono (ok : Nat → String → Bool) (feeds : List (List Item)) (fr : Bool)
    (s : EngState) : s.store ⊆ (run ok feeds fr s).store := by
  induction feeds generalizing fr s with
  | nil => exact fun x hx => hx
  | cons f fs ih =>
    exact fun x hx => ih false _ (processFeed_store_mono ok fr f s hx)

lemma sendItem_callsEq {ok : Nat → String → Bool} (hok : ∀ n x, ok n x = true)
    {s : EngState} (h : s.calls = s.delivered) (it : Item) :
    (sendItem ok s it).calls = (sendItem ok s it).delivered := by
  cases hL : it.link with
  | none => simpa [sendItem, hL] using h
  | some l => simp [sendItem, hL, hok, h]

lemma steadyStep_callsEq {ok : Nat → String → Bool} (hok : ∀ n x, ok n x = true)
    {s : EngState} (h : s.calls = s.delivered) (it : Item) :
    (steadyStep ok s it).calls = (steadyStep ok s it).delivered := by
  cases hL : it.link with
  | none => simpa [steadyStep, hL] using h
  | some l =>
    by_cases hm : l ∈ s.store
    · simpa [steadyStep, hL, hm] using h
    · simp only [steadyStep, hL, hm, if_false]
      exact sendItem_callsEq hok h it

lemma processFeed_callsEq {ok : Nat → String → Bool} (hok : ∀ n x, ok n x = true)
    {fr : Bool} {items : List Item} {s : EngState} (h : s.calls = s.delivered) :
    (processFeed ok fr items s).calls = (processFeed ok fr items s).delivered := by
  cases items with
  | nil => simpa [processFeed] using h
  | cons it0 rest =>
    by_cases hfr : fr
    · simp only [processFeed, hfr, if_true]
      rw [markFold_calls, markFold_delivered]
      cases hL : it0.link with
      | none => simpa [hL] using h
      | some l =>
        by_cases hm : l ∈ s.store
        · simpa [hL, hm] using h
        · simp only [hL, hm, if_false]
          exact sendItem_callsEq hok h it0
    · simp only [processFeed, hfr, if_false]
      exact foldl_pres (fun st => st.calls = st.delivered) (steadyStep ok)
        (fun st a hst => steadyStep_callsEq hok hst a) _ _ h

lemma run_callsEq {ok : Nat → String → Bool} (hok : ∀ n x, ok n x = true)
    {feeds : List (List Item)} {fr : Bool} {s : EngState} (h : s.calls = s.delivered) :
    (run ok feeds fr s).calls = (run ok feeds fr s).delivered := by
  induction feeds generalizing fr s with
  | nil => simpa [run] using h
  | cons f fs ih => exact ih (processFeed_callsEq hok h)

/-- C1.  Uniqueness: starting from the empty store, after any number of
poll cycles (the first one bootstrap, the rest steady, exactly as
`scheduler` drives `process_feed`), every link has at most one record in
the dedup store and at most one successful delivery (a "delivery" being a
send that the sink accepted, after which `add_post` runs); and when the
sink accepts every call, every link also has at most one sink invocation
in total. -/
theorem uniqueness_after_cycles (ok : Nat → String → Bool) (feeds : List (List Item))
    (l : String) :
    (run ok feeds true initState).store.count l ≤ 1 ∧
    (run ok feeds true initState).delivered.count l ≤ 1 ∧
    ((∀ n x, ok n x = true) → (run ok feeds true initState).calls.count l ≤ 1) := by
  have hinv : DedupInv (run ok feeds true initState) :=
    run_dedupInv ⟨List.nodup_nil, List.nodup_nil, by intro x hx; cases hx⟩
  refine ⟨List.nodup_iff_count_le_one.mp hinv.1 l,
          List.nodup_iff_count_le_one.mp hinv.2.1 l, ?_⟩
  intro hok
  rw [run_callsEq hok rfl]
  exact List.nodup_iff_count_le_one.mp hinv.2.1 l

/-- Witness for C1 at a concrete run (the spec §8 scenario). -/
theorem uniqueness_after_cycles_witness :
    (run (fun _ _ => true) [[itemA], [itemA], [itemB, itemA]] true initState).store.count "a" ≤ 1 ∧
    (run (fun _ _ => true) [[itemA], [itemA], [itemB, itemA]] true initState).delivered.count "a" ≤ 1 ∧
    (run (fun _ _ => true) [[itemA], [itemA], [itemB, itemA]] true initState).calls.count "a" ≤ 1 := by
  obtain ⟨h1, h2, h3⟩ :=
    uniqueness_after_cycles (fun _ _ => true) [[itemA], [itemA], [itemB, itemA]] "a"
  exact ⟨h1, h2, h3 (fun _ _ => rfl)⟩

lemma markFold_mem (items : List Item) (s : EngState) (it : Item) (l : String)
    (hit : it ∈ items) (hl : it.link = some l) :
    l ∈ (items.foldl markStep s).store := by
  induction items generalizing s with
  | nil => cases hit
  | cons a tl ih =>
    rcases List.mem_cons.mp hit with rfl | hmem
    · rw [List.foldl_cons]
      apply foldl_store_mono markStep markStep_store_mono
      by_cases hm : l ∈ s.store
      · simp [markStep, hl, hm]
      · simp [markStep, hl, hm]
    · exact ih _ hmem

/-- C2.  Bootstrap suppression: on the very first cycle with a non-empty
fetched sequence `it0 :: rest` (newest first), the sink is invoked at
most once — for `it0`, and only when `it0` has a link not already in the
store — and afterwards every item of the sequence that has a link has a
record in the store. -/
theorem bootstrap_suppression (ok : Nat → String → Bool) (it0 : Item) (rest : List Item)
    (s : EngState) :
    ((processFeed ok true (it0 :: rest) s).calls
        = s.calls ++ (match it0.link with
            | some l => if l ∈ s.store then [] else [l]
            | none => [])) ∧
    ∀ it ∈ it0 :: rest, ∀ l, it.link = some l →
      l ∈ (processFeed ok true (it0 :: rest) s).store := by
  constructor
  · simp only [processFeed, if_true]
    rw [markFold_calls]
    cases hL : it0.link with
    | none => simp
    | some l =>
      by_cases hm : l ∈ s.store
      · simp [hm]
      · by_cases hok : ok s.calls.length l <;> simp [hm, sendItem, hL, hok]
  · intro it hit l hl
    simp only [processFeed, if_true]
    exact markFold_mem _ _ it l hit hl

lemma steadyFold_sublist (ok : Nat → String → Bool) :
    ∀ (L : List Item) (s : EngState), ∃ c d,
      (L.foldl (steadyStep ok) s).calls = s.calls ++ c ∧
      (L.foldl (steadyStep ok) s).delivered = s.delivered ++ d ∧
      c.Sublist (L.filterMap Item.link) ∧ d.Sublist c := by
  intro L
  induction L with
  | nil => intro s; exact ⟨[], [], by simp, by simp, List.Sublist.refl _, List.Sublist.refl _⟩
  | cons a tl ih =>
    intro s
    rw [List.foldl_cons]
    cases hL : a.link with
    | none =>
      obtain ⟨c, d, hc, hd, hsub, hdc⟩ := ih (steadyStep ok s a)
      refine ⟨c, d, ?_, ?_, ?_, hdc⟩
      · rw [hc]; simp [steadyStep, hL]
      · rw [hd]; simp [steadyStep, hL]
      · rw [List.filterMap_cons_none hL]; exact hsub
    | some l =>
      by_cases hm : l ∈ s.store
      · obtain ⟨c, d, hc, hd, hsub, hdc⟩ := ih (steadyStep ok s a)
        refine ⟨c, d, ?_, ?_, ?_, hdc⟩
        · rw [hc]; simp [steadyStep, hL, hm]
        · rw [hd]; simp [steadyStep, hL, hm]
        · rw [List.filterMap_cons_some hL]
          exact hsub.cons l
      · by_cases hok : ok s.calls.length l
        · obtain ⟨c, d, hc, hd, hsub, hdc⟩ := ih (steadyStep ok s a)
          refine ⟨l :: c, l :: d, ?_, ?_, ?_, ?_⟩
          · rw [hc]; simp [steadyStep, sendItem, hL, hm, hok]
          · rw [hd]; simp [steadyStep, sendItem, hL, hm, hok]
          · rw [List.filterMap_cons_some hL]
            exact hsub.cons₂ l
          · exact hdc.cons₂ l
        · obtain ⟨c, d, hc, hd, hsub, hdc⟩ := ih (steadyStep ok s a)
          refine ⟨l :: c, d, ?_, ?_, ?_, ?_⟩
          · rw [hc]; simp [steadyStep, sendItem, hL, hm, hok]
          · rw [hd]; simp [steadyStep, sendItem, hL, hm, hok]
          · rw [List.filterMap_cons_some hL]
            exact hsub.cons₂ l
          · exact hdc.cons l

/-- C3.  Steady ordering: a steady cycle walks the fetched newest-first
sequence in reverse, so the cycle's new sink calls — and in particular
its new successful deliveries — form a subsequence of the item links in
oldest-to-newest order: the new items are delivered oldest-to-newest
relative to each other. -/
theorem steady_ordering (ok : Nat → String → Bool) (items : List Item) (s : EngState) :
    ∃ c d, (processFeed ok false items s).calls = s.calls ++ c ∧
      (processFeed ok false items s).delivered = s.delivered ++ d ∧
      c.Sublist (items.reverse.filterMap Item.link) ∧ d.Sublist c := by
  cases items with
  | nil => exact ⟨[], [], by simp [processFeed], by simp [processFeed],
      List.Sublist.refl _, List.Sublist.refl _⟩
  | cons it0 rest =>
    simpa only [processFeed] using steadyFold_sublist ok (it0 :: rest).reverse s

/-- C4.  Delivery failure in a steady cycle: with a two-item feed
`[itNew, itOld]` (newest first, both links fresh), when the sink rejects
the oldest item's send and accepts the newest one's, the cycle still
makes both sink calls in oldest-to-newest order (it does not abort), no
record is written for the failed link, and a later steady cycle over the
same feed retries and delivers the failed item once the sink accepts. -/
theorem steady_failure_retry (ok ok2 : Nat → String → Bool) (itNew itOld : Item)
    (lNew lOld : String) (s : EngState)
    (hNew : itNew.link = some lNew) (hOld : itOld.link = some lOld)
    (hsN : lNew ∉ s.store) (hsO : lOld ∉ s.store) (hne : lNew ≠ lOld)
    (hfail : ok s.calls.length lOld = false)
    (hsucc : ok (s.calls.length + 1) lNew = true)
    (hretry : ok2 (s.calls.length + 2) lOld = true) :
    processFeed ok false [itNew, itOld] s =
      { store := s.store ++ [lNew], calls := s.calls ++ [lOld, lNew],
        delivered := s.delivered ++ [lNew] } ∧
    lOld ∉ (processFeed ok false [itNew, itOld] s).store ∧
    (processFeed ok2 false [itNew, itOld] (processFeed ok false [itNew, itOld] s)).delivered
      = s.delivered ++ [lNew, lOld] := by
  have h1 : processFeed ok false [itNew, itOld] s =
      { store := s.store ++ [lNew], calls := s.calls ++ [lOld, lNew],
        delivered := s.delivered ++ [lNew] } := by
    simp [processFeed, steadyStep, sendItem, hNew, hOld, hsN, hsO, hfail, hsucc]
  refine ⟨h1, ?_, ?_⟩
  · rw [h1]
    simp only [List.mem_append, List.mem_singleton]
    rintro (h | h)
    · exact hsO h
    · exact hne h.symm
  · rw [h1]
    simp [processFeed, steadyStep, sendItem, hNew, hOld, hsO, Ne.symm hne, hretry,
      List.length_append]

/-- Witness for C4 at concrete items and a sink that rejects the first
call and accepts later ones. -/
theorem steady_failure_retry_witness :
    processFeed (fun n _ => decide (n ≠ 0)) false
        [⟨some "new", none, none, none, none⟩, ⟨some "old", none, none, none, none⟩]
        initState =
      { store := ["new"], calls := ["old", "new"], delivered := ["new"] } ∧
    "old" ∉ (processFeed (fun n _ => decide (n ≠ 0)) false
        [⟨some "new", none, none, none, none⟩, ⟨some "old", none, none, none, none⟩]
        initState).store ∧
    (processFeed (fun _ _ => true) false
        [⟨some "new", none, none, none, none⟩, ⟨some "old", none, none, none, none⟩]
        (processFeed (fun n _ => decide (n ≠ 0)) false
          [⟨some "new", none, none, none, none⟩, ⟨some "old", none, none, none, none⟩]
          initState)).delivered = ["new", "old"] := by
  have := steady_failure_retry (fun n _ => decide (n ≠ 0)) (fun _ _ => true)
    ⟨some "new", none, none, none, none⟩ ⟨some "old", none, none, none, none⟩
    "new" "old" initState rfl rfl (by simp [initState]) (by simp [initState])
    (by decide) rfl rfl rfl
  simpa [initState] using this

lemma steadyFold_id_of_mem (ok : Nat → String → Bool) :
    ∀ (L : List Item) (s : EngState),
      (∀ it ∈ L, ∀ l, it.link = some l → l ∈ s.store) →
      L.foldl (steadyStep ok) s = s := by
  intro L
  induction L with
  | nil => intro s _; rfl
  | cons a tl ih =>
    intro s h
    have hstep : steadyStep ok s a = s := by
      cases hL : a.link with
      | none => simp [steadyStep, hL]
      | some l => simp [steadyStep, hL, h a (List.mem_cons_self a tl) l hL]
    rw [List.foldl_cons, hstep]
    exact ih s (fun it hit l hl => h it (List.mem_cons_of_mem a hit) l hl)

lemma processFeed_steady_id_of_mem (ok : Nat → String → Bool) (items : List Item)
    (s : EngState) (h : ∀ it ∈ items, ∀ l, it.link = some l → l ∈ s.store) :
    processFeed ok false items s = s := by
  cases items with
  | nil => rfl
  | cons it0 rest =>
    simp only [processFeed]
    exact steadyFold_id_of_mem ok _ s
      (fun it hit l hl => h it (List.mem_reverse.mp hit) l hl)

lemma steadyFold_mem_allsucc :
    ∀ (L : List Item) (s : EngState) (it : Item) (l : String), it ∈ L →
      it.link = some l → l ∈ (L.foldl (steadyStep (fun _ _ => true)) s).store := by
  intro L
  induction L with
  | nil => intro s it l hit; cases hit
  | cons a tl ih =>
    intro s it l hit hl
    rcases List.mem_cons.mp hit with rfl | hmem
    · rw [List.foldl_cons]
      apply foldl_store_mono _ (steadyStep_store_mono _)
      by_cases hm : l ∈ s.store
      · simp [steadyStep, hl, hm]
      · simp [steadyStep, sendItem, hl, hm]
    · exact ih _ it l hmem hl

lemma processFeed_boot_mem (ok : Nat → String → Bool) (items : List Item) (s : EngState)
    (it : Item) (l : String) (hit : it ∈ items) (hl : it.link = some l) :
    l ∈ (processFeed ok true items s).store := by
  cases items with
  | nil => cases hit
  | cons it0 rest =>
    simp only [processFeed, if_true]
    exact markFold_mem _ _ it l hit hl

/-- C7 (amended).  Idempotent re-poll: a steady cycle over a feed
unchanged since the previous cycle is a no-op — zero sink calls, zero
new deliveries, zero new records, identical state — provided the
previous cycle left every linked item recorded, which holds whenever the
previous cycle was a steady cycle whose deliveries all succeeded, and
unconditionally when it was the bootstrap cycle. -/
theorem idempotent_repoll (ok1 ok2 : Nat → String → Bool) (items : List Item)
    (s : EngState) :
    processFeed ok2 false items (processFeed (fun _ _ => true) false items s)
      = processFeed (fun _ _ => true) false items s ∧
    processFeed ok2 false items (processFeed ok1 true items s)
      = processFeed ok1 true items s := by
  constructor
  · apply processFeed_steady_id_of_mem
    intro it hit l hl
    cases items with
    | nil => cases hit
    | cons it0 rest =>
      simp only [processFeed]
      exact steadyFold_mem_allsucc _ s it l (List.mem_reverse.mpr hit) hl
  · apply processFeed_steady_id_of_mem
    intro it hit l hl
    exact processFeed_boot_mem ok1 items s it l hit hl

/-- Counterexample to C7 as stated: after a steady cycle in which the
only item's send failed (so nothing was recorded), re-running the same
steady cycle over the unchanged feed makes one new sink call and writes
one new record — the store changes. -/
theorem idempotent_repoll_counterexample :
    (processFeed (fun n _ => decide (n ≠ 0)) false [⟨some "a", none, none, none, none⟩]
        (processFeed (fun n _ => decide (n ≠ 0)) false [⟨some "a", none, none, none, none⟩]
          initState)).store
      ≠ (processFeed (fun n _ => decide (n ≠ 0)) false [⟨some "a", none, none, none, none⟩]
          initState).store ∧
    (processFeed (fun n _ => decide (n ≠ 0)) false [⟨some "a", none, none, none, none⟩]
        (processFeed (fun n _ => decide (n ≠ 0)) false [⟨some "a", none, none, none, none⟩]
          initState)).calls.length
      = (processFeed (fun n _ => decide (n ≠ 0)) false [⟨some "a", none, none, none, none⟩]
          initState).calls.length + 1 := by
  constructor
  · simp [processFeed, steadyStep, sendItem, initState]
  · simp [processFeed, steadyStep, sendItem, initState]

/-- Once a link is recorded, a `sendItem` step neither repeats a sink
call for it nor delivers it (the engine only sends links that are not in
the store). -/
lemma sendItem_keep {ok : Nat → String → Bool} {s : EngState} {it : Item} {l : String}
    (hmem : l ∈ s.store) (hnew : ∀ l', it.link = some l' → l' ∉ s.store) :
    l ∈ (sendItem ok s it).store ∧
    (sendItem ok s it).calls.count l = s.calls.count l ∧
    (sendItem ok s it).delivered.count l = s.delivered.count l := by
  cases hL : it.link with
  | none => simp [sendItem, hL, hmem]
  | some l' =>
    have hne : l' ≠ l := fun h => hnew l' hL (h ▸ hmem)
    have hcnt : List.count l [l'] = 0 := by
      rw [List.count_eq_zero, List.mem_singleton]
      exact fun h => hne h.symm
    by_cases hok : ok s.calls.length l'
    · simp [sendItem, hL, hok, hmem, List.count_append, hcnt]
    · simp [sendItem, hL, hok, hmem, List.count_append, hcnt]

lemma steadyStep_keep {ok : Nat → String → Bool} {s : EngState} {it : Item} {l : String}
    (hmem : l ∈ s.store) :
    l ∈ (steadyStep ok s it).store ∧
    (steadyStep ok s it).calls.count l = s.calls.count l ∧
    (steadyStep ok s it).delivered.count l = s.delivered.count l := by
  cases hL : it.link with
  | none => simp [steadyStep, hL, hmem]
  | some l' =>
    by_cases hm : l' ∈ s.store
    · simp [steadyStep, hL, hm, hmem]
    · simp only [steadyStep, hL, hm, if_false]
      exact sendItem_keep hmem (by intro x hx; rw [hL] at hx; cases hx; exact hm)

lemma markStep_keep {s : EngState} {it : Item} {l : String} (hmem : l ∈ s.store) :
    l ∈ (markStep s it).store ∧
    (markStep s it).calls.count l = s.calls.count l ∧
    (markStep s it).delivered.count l = s.delivered.count l := by
  refine ⟨markStep_store_mono s it hmem, ?_, ?_⟩
  · rw [markStep_calls]
  · rw [markStep_delivered]

lemma processFeed_keep (ok : Nat → String → Bool) (fr : Bool) (items : List Item)
    {s : EngState} {l : String} (hmem : l ∈ s.store) :
    l ∈ (processFeed ok fr items s).store ∧
    (processFeed ok fr items s).calls.count l = s.calls.count l ∧
    (processFeed ok fr items s).delivered.count l = s.delivered.count l := by
  have hfold : ∀ (step : EngState → Item → EngState),
      (∀ (st : EngState) (a : Item), l ∈ st.store →
        l ∈ (step st a).store ∧ (step st a).calls.count l = st.calls.count l ∧
        (step st a).delivered.count l = st.delivered.count l) →
      ∀ (L : List Item) (st : EngState), l ∈ st.store →
        l ∈ (L.foldl step st).store ∧
        (L.foldl step st).calls.count l = st.calls.count l ∧
        (L.foldl step st).delivered.count l = st.delivered.count l := by
    intro step hstep L
    induction L with
    | nil => intro st h; exact ⟨h, rfl, rfl⟩
    | cons a tl ih =>
      intro st h
      obtain ⟨h1, h2, h3⟩ := hstep st a h
      obtain ⟨g1, g2, g3⟩ := ih (step st a) h1
      exact ⟨g1, g2.trans h2, g3.trans h3⟩
  cases items with
  | nil => exact ⟨hmem, rfl, rfl⟩
  | cons it0 rest =>
    by_cases hfr : fr
    · simp only [processFeed, hfr, if_true]
      have hsend : l ∈ (match it0.link with
          | none => s
          | some l' => if l' ∈ s.store then s else sendItem ok s it0).store ∧
          (match it0.link with
          | none => s
          | some l' => if l' ∈ s.store then s else sendItem ok s it0).calls.count l
            = s.calls.count l ∧
          (match it0.link with
          | none => s
          | some l' => if l' ∈ s.store then s else sendItem ok s it0).delivered.count l
            = s.delivered.count l := by
        cases hL : it0.link with
        | none => exact ⟨hmem, rfl, rfl⟩
        | some l' =>
          by_cases hm : l' ∈ s.store
          · simp [hm, hmem]
          · simp only [hm, if_false]
            exact sendItem_keep hmem (by intro x hx; rw [hL] at hx; cases hx; exact hm)
      obtain ⟨h1, h2, h3⟩ := hsend
      obtain ⟨g1, g2, g3⟩ := hfold markStep (fun st a h => markStep_keep h) (it0 :: rest) _ h1
      exact ⟨g1, g2.trans h2, g3.trans h3⟩
    · simp only [processFeed, hfr, if_false]
      exact hfold (steadyStep ok) (fun st a h => steadyStep_keep h) (it0 :: rest).reverse s hmem

lemma run_keep (ok : Nat → String → Bool) (feeds : List (List Item)) (fr : Bool)
    {s : EngState} {l : String} (hmem : l ∈ s.store) :
    l ∈ (run ok feeds fr s).store ∧
    (run ok feeds fr s).calls.count l = s.calls.count l ∧
    (run ok feeds fr s).delivered.count l = s.delivered.count l := by
  induction feeds generalizing fr s with
  | nil => exact ⟨hmem, rfl, rfl⟩
  | cons f fs ih =>
    obtain ⟨h1, h2, h3⟩ := processFeed_keep ok fr f hmem
    obtain ⟨g1, g2, g3⟩ := ih false h1
    exact ⟨g1, g2.trans h2, g3.trans h3⟩

/-- C9.  Bootstrap failure is permanent: on the bootstrap cycle, if the
newest item's link is fresh but the sink rejects its send, the
backlog-marking loop still records the link, no delivery happened, and on
every later run of cycles (all steady) the link is never called again —
the item is never retried, unlike a steady-cycle failure. -/
theorem bootstrap_failure_permanent (ok : Nat → String → Bool) (it0 : Item)
    (rest : List Item) (l : String) (s : EngState)
    (hL : it0.link = some l) (hs : l ∉ s.store)
    (hfail : ok s.calls.length l = false) :
    l ∈ (processFeed ok true (it0 :: rest) s).store ∧
    (processFeed ok true (it0 :: rest) s).delivered = s.delivered ∧
    (processFeed ok true (it0 :: rest) s).calls = s.calls ++ [l] ∧
    ∀ (ok2 : Nat → String → Bool) (feeds : List (List Item)),
      (run ok2 feeds false (processFeed ok true (it0 :: rest) s)).calls.count l
        = (processFeed ok true (it0 :: rest) s).calls.count l ∧
      (run ok2 feeds false (processFeed ok true (it0 :: rest) s)).delivered.count l
        = (processFeed ok true (it0 :: rest) s).delivered.count l := by
  have hmem : l ∈ (processFeed ok true (it0 :: rest) s).store :=
    processFeed_boot_mem ok (it0 :: rest) s it0 l (List.mem_cons_self it0 rest) hL
  refine ⟨hmem, ?_, ?_, ?_⟩
  · simp only [processFeed, if_true]
    rw [markFold_delivered]
    simp [hL, hs, sendItem, hfail]
  · simp only [processFeed, if_true]
    rw [markFold_calls]
    simp [hL, hs, sendItem, hfail]
  · intro ok2 feeds
    obtain ⟨g1, g2, g3⟩ := run_keep ok2 feeds false hmem
    exact ⟨g2, g3⟩

/-- Witness for C9: single-item feed, sink that always rejects, then one
later steady cycle over the same feed. -/
theorem bootstrap_failure_permanent_witness :
    "a" ∈ (processFeed (fun _ _ => false) true [itemA] initState).store ∧
    (processFeed (fun _ _ => false) true [itemA] initState).delivered = [] ∧
    (processFeed (fun _ _ => false) true [itemA] initState).calls = ["a"] ∧
    (run (fun _ _ => true) [[itemA]] false
        (processFeed (fun _ _ => false) true [itemA] initState)).calls.count "a"
      = (processFeed (fun _ _ => false) true [itemA] initState).calls.count "a" ∧
    (run (fun _ _ => true) [[itemA]] false
        (processFeed (fun _ _ => false) true [itemA] initState)).delivered.count "a"
      = (processFeed (fun _ _ => false) true [itemA] initState).delivered.count "a" := by
  obtain ⟨h1, h2, h3, h4⟩ :=
    bootstrap_failure_permanent (fun _ _ => false) itemA [] "a" initState rfl
      (by simp [initState]) rfl
  obtain ⟨g1, g2⟩ := h4 (fun _ _ => true) [[itemA]]
  exact ⟨h1, h2, by simpa [initState] using h3, g1, g2⟩

lemma length_mk (l : List Char) : (String.mk l).length = l.length := rfl

lemma data_mk (l : List Char) : (String.mk l).data = l := rfl

/-- C10.  The item link and the configured support link are interpolated
verbatim — unescaped — into the `href` attributes of the message: the
message decomposes around the raw `link.data` and `m.data`.  At the
concrete link `h"><i>` (which `escape` would have rewritten) the message
therefore contains a raw `<` and a raw `"` coming from the link inside
the markup; only title and body text are escaped. -/
theorem links_interpolated_verbatim (title text link m : String) :
    ((messageOf title text link (some m)).data
      = "<b>".data ++ (escape title).data ++ "</b>\n\n".data
        ++ (truncBody (escape text)).data ++ "\n\n<a href=\"".data ++ link.data
        ++ "\">Посилання</a> | <a href=\"".data ++ m.data ++ "\">Підтримати</a>".data) ∧
    ((messageOf title text link none).data
      = "<b>".data ++ (escape title).data ++ "</b>\n\n".data
        ++ (truncBody (escape text)).data ++ "\n\n<a href=\"".data ++ link.data
        ++ "\">Посилання</a>".data) ∧
    escape "h\"><i>" ≠ "h\"><i>" ∧
    (messageOf "" "" "h\"><i>" none).data.count '<' = 5 ∧
    (messageOf "" "" "h\"><i>" none).data.count '"' = 3 := by
  refine ⟨?_, ?_, by decide, by decide, by decide⟩
  · simp [messageOf, List.append_assoc]
  · simp [messageOf, List.append_assoc]

lemma escapeList_noAngle (l : List Char) : noAngle (escapeList l) = true := by
  induction l with
  | nil => rfl
  | cons c cs ih =>
    simp only [escapeList, noAngle, List.all_append]
    refine (Bool.and_eq_true _ _).mpr ⟨?_, ih⟩
    by_cases h1 : c = '&'
    · simp [escapeChar, h1]
    by_cases h2 : c = '<'
    · simp [escapeChar, h1, h2]
    by_cases h3 : c = '>'
    · simp [escapeChar, h1, h2, h3]
    by_cases h4 : c = '"'
    · simp [escapeChar, h1, h2, h3, h4]
    by_cases h5 : c = Char.ofNat 39
    · simp [escapeChar, h1, h2, h3, h4, h5]
    · simp [escapeChar, h1, h2, h3, h4, h5, String.singleton, h2, h3]

lemma escapeList_entitySafe (l : List Char) : EntitySafe (escapeList l) := by
  induction l with
  | nil => exact EntitySafe.nil
  | cons c cs ih =>
    show EntitySafe ((escapeChar c).data ++ escapeList cs)
    by_cases h1 : c = '&'
    · rw [h1]
      exact EntitySafe.amp ih
    by_cases h2 : c = '<'
    · rw [h2]
      exact EntitySafe.lt ih
    by_cases h3 : c = '>'
    · rw [h3]
      exact EntitySafe.gt ih
    by_cases h4 : c = '"'
    · rw [h4]
      exact EntitySafe.quot ih
    by_cases h5 : c = Char.ofNat 39
    · rw [h5]
      exact EntitySafe.apos ih
    · have : (escapeChar c).data = [c] := by
        simp [escapeChar, h1, h2, h3, h4, h5, String.singleton]
      rw [this]
      exact EntitySafe.plain h1 ih

lemma noAngle_take (l : List Char) (n : Nat) (h : noAngle l = true) :
    noAngle (l.take n) = true := by
  simp only [noAngle, List.all_eq_true] at h ⊢
  exact fun c hc => h c ((List.take_sublist n l).subset hc)

/-- C8.  Entity safety: the escaped title and the escaped (and possibly
truncated) body that `send_item` splices into the message contain no raw
`<` or `>` at all, and every `&` of the escaped title and body starts one
of the entities `html.escape` emits — so `<`, `>`, `&` from the feed's
title or normalized text are never interpretable as markup by the sink;
they appear HTML-escaped in the constructed message (`messageOf` splices
`escape title` and `truncBody (escape text)` verbatim). -/
theorem entity_safety (title text : String) :
    noAngle (escape title).data = true ∧ EntitySafe (escape title).data ∧
    noAngle (truncBody (escape text)).data = true ∧ EntitySafe (escape text).data := by
  refine ⟨escapeList_noAngle title.data, escapeList_entitySafe title.data, ?_,
    escapeList_entitySafe text.data⟩
  by_cases h : (escape text).length > 900
  · simp only [truncBody, h, if_true, String.data_append, data_mk]
    simp only [noAngle, List.all_append] at *
    refine (Bool.and_eq_true _ _).mpr ⟨?_, by decide⟩
    exact noAngle_take _ 900 (escapeList_noAngle text.data)
  · simp only [truncBody, h, if_false]
    exact escapeList_noAngle text.data

lemma str_length (s : String) : s.length = s.data.length := rfl

lemma truncBody_length_of_long {s : String} (h : s.length > 900) :
    (truncBody s).length = 903 := by
  have e : "...".length = 3 := rfl
  simp only [truncBody, h, if_true, String.length_append, length_mk, List.length_take, e]
  rw [str_length] at h
  omega

lemma messageOf_length_none (title text link : String) (h : (escape text).length > 900) :
    (messageOf title text link none).length
      = 938 + (escape title).length + link.length := by
  have e1 : "<b>".length = 3 := rfl
  have e2 : "</b>\n\n".length = 6 := rfl
  have e3 : "\n\n<a href=\"".length = 11 := rfl
  have e4 : "\">Посилання</a>".length = 15 := rfl
  have e0 : "".length = 0 := rfl
  simp only [messageOf, String.length_append, truncBody_length_of_long h, e0, e1, e2, e3, e4]
  omega

lemma messageOf_length_some (title text link m : String) (h : (escape text).length > 900) :
    (messageOf title text link (some m)).length
      = 966 + (escape title).length + link.length + m.length := by
  have e1 : "<b>".length = 3 := rfl
  have e2 : "</b>\n\n".length = 6 := rfl
  have e3 : "\n\n<a href=\"".length = 11 := rfl
  have e4 : "\">Посилання</a>".length = 15 := rfl
  have e5 : " | <a href=\"".length = 12 := rfl
  have e6 : "\">Підтримати</a>".length = 16 := rfl
  simp only [messageOf, String.length_append, truncBody_length_of_long h, e1, e2, e3, e4, e5,
    e6]
  omega

/-- C6 (amended).  Truncation and length: when the escaped body exceeds
900 characters the delivered body is exactly its first 900 characters
followed by the `...` marker, and the total message length is exactly
938 (no support link) or 966 plus the support-link length (with one),
plus the escaped title length and the link length.  The total therefore
stays under the sink's 1024 caption limit exactly when those variable
parts are small enough (title+link ≤ 85 without support link, ≤ 57 with
the support-link length included), and under the 4096 text-message limit
when ≤ 3157 (≤ 3129). -/
theorem truncation_bounds (title text link : String) (h : (escape text).length > 900) :
    (truncBody (escape text)).data = (escape text).data.take 900 ++ "...".data ∧
    ((escape text).data.take 900).length = 900 ∧
    (messageOf title text link none).length = 938 + (escape title).length + link.length ∧
    (∀ m : String, (messageOf title text link (some m)).length
        = 966 + (escape title).length + link.length + m.length) ∧
    ((escape title).length + link.length ≤ 85 →
      (messageOf title text link none).length < 1024) ∧
    (∀ m : String, (escape title).length + link.length + m.length ≤ 57 →
      (messageOf title text link (some m)).length < 1024) ∧
    ((escape title).length + link.length ≤ 3157 →
      (messageOf title text link none).length < 4096) ∧
    (∀ m : String, (escape title).length + link.length + m.length ≤ 3129 →
      (messageOf title text link (some m)).length < 4096) := by
  have htake : ((escape text).data.take 900).length = 900 := by
    rw [List.length_take]
    rw [str_length] at h
    omega
  refine ⟨by simp [truncBody, h], htake, messageOf_length_none title text link h,
    fun m => messageOf_length_some title text link m h, ?_, ?_, ?_, ?_⟩
  · intro hb
    rw [messageOf_length_none title text link h]
    omega
  · intro m hb
    rw [messageOf_length_some title text link m h]
    omega
  · intro hb
    rw [messageOf_length_none title text link h]
    omega
  · intro m hb
    rw [messageOf_length_some title text link m h]
    omega

/-- Witness for C6 (amended) at a 901-character body, a short title and
a short link. -/
theorem truncation_bounds_witness :
    (escape (String.mk (List.replicate 901 'a'))).length > 900 ∧
    (messageOf "T" (String.mk (List.replicate 901 'a')) "L" none).length < 1024 := by
  have h : (escape (String.mk (List.replicate 901 'a'))).length > 900 := by decide
  refine ⟨h, ?_⟩
  exact (truncation_bounds "T" (String.mk (List.replicate 901 'a')) "L" h).2.2.2.2.1
    (by decide)

/-- Counterexample to C6 as stated: a feed item with an image enclosure,
a 100-character title and a 901-character body yields a 1039-character
caption — not under the sink's 1024-character image-with-caption
limit.  The unconditional "total length stays under the sink's limit"
part of the claim is false; it holds only with the title/link bounds of
the amended statement. -/
theorem truncation_bounds_counterexample :
    (escape (String.mk (List.replicate 901 'a'))).length > 900 ∧
    (messageOf (String.mk (List.replicate 100 'a')) (String.mk (List.replicate 901 'a'))
        "L" none).length = 1039 ∧
    ¬ (messageOf (String.mk (List.replicate 100 'a')) (String.mk (List.replicate 901 'a'))
        "L" none).length < 1024 := by
  refine ⟨by decide, ?_, ?_⟩ <;> decide

lemma steadyE_unavail (ok : String → Bool) :
    ∀ (L : List Item) (st : EStore), (∃ it ∈ L, it.link.isSome) →
      steadyE (fun _ => false) ok L st = Except.error "store unavailable" := by
  intro L
  induction L with
  | nil => intro st h; obtain ⟨it, hit, _⟩ := h; cases hit
  | cons a tl ih =>
    intro st h
    cases hL : a.link with
    | some l => simp [steadyE, hL, postExistsE]
    | none =>
      obtain ⟨it, hit, hsome⟩ := h
      rcases List.mem_cons.mp hit with rfl | hmem
      · rw [hL] at hsome; cases hsome
      · simp only [steadyE, hL]
        exact ih st ⟨it, hmem, hsome⟩

lemma markAllE_unavail :
    ∀ (L : List Item) (st : EStore), (∃ it ∈ L, it.link.isSome) →
      markAllE (fun _ => false) L st = Except.error "store unavailable" := by
  intro L
  induction L with
  | nil => intro st h; obtain ⟨it, hit, _⟩ := h; cases hit
  | cons a tl ih =>
    intro st h
    cases hL : a.link with
    | some l => simp [markAllE, hL, postExistsE]
    | none =>
      obtain ⟨it, hit, hsome⟩ := h
      rcases List.mem_cons.mp hit with rfl | hmem
      · rw [hL] at hsome; cases hsome
      · simp only [markAllE, hL]
        exact ih st ⟨it, hmem, hsome⟩

/-- C5 (amended).  Store errors: `add_post` for an already-present link
is a fatal integrity error, not a benign idempotent no-op (the in-flow
callers avoid it only because they pre-check `post_exists`); and store
unavailability during a poll cycle is not deferred — it propagates out
of `process_feed`'s own `post_exists`/`add_post` calls (bootstrap or
steady), and since the scheduler loop has no handler it stops the
polling service instead of running subsequent cycles.  Only errors
raised inside `send_item` are caught. -/
theorem store_errors :
    (∀ (st : EStore) (l : String), l ∈ st.store →
      addPostE (fun _ => true) st l = Except.error "IntegrityError: duplicate link") ∧
    (∀ (ok : String → Bool) (fr : Bool) (items : List Item) (st : EStore),
      (∃ it ∈ items, it.link.isSome) →
      processFeedE (fun _ => false) ok fr items st = Except.error "store unavailable") ∧
    (∀ (ok : String → Bool) (fr : Bool) (f : List Item) (fs : List (List Item)) (st : EStore),
      (∃ it ∈ f, it.link.isSome) →
      schedulerRunE (fun _ => false) ok (f :: fs) fr st
        = Except.error "store unavailable") := by
  have hpf : ∀ (ok : String → Bool) (fr : Bool) (items : List Item) (st : EStore),
      (∃ it ∈ items, it.link.isSome) →
      processFeedE (fun _ => false) ok fr items st = Except.error "store unavailable" := by
    intro ok fr items st h
    cases items with
    | nil => obtain ⟨it, hit, _⟩ := h; cases hit
    | cons it0 rest =>
      by_cases hfr : fr
      · simp only [processFeedE, hfr, if_true]
        cases hL : it0.link with
        | some l => simp [postExistsE]
        | none =>
          simp only []
          exact markAllE_unavail (it0 :: rest) st h
      · simp only [processFeedE, hfr, if_false]
        apply steadyE_unavail
        obtain ⟨it, hit, hsome⟩ := h
        exact ⟨it, List.mem_reverse.mpr hit, hsome⟩
  refine ⟨?_, hpf, ?_⟩
  · intro st l hmem
    simp [addPostE, hmem]
  · intro ok fr f fs st h
    simp only [schedulerRunE, hpf ok fr f st h]

/-- Witness for C5 (amended) at concrete inputs. -/
theorem store_errors_witness :
    addPostE (fun _ => true) ⟨["a"], 0⟩ "a" = Except.error "IntegrityError: duplicate link" ∧
    processFeedE (fun _ => false) (fun _ => true) false [itemA] ⟨[], 0⟩
      = Except.error "store unavailable" ∧
    schedulerRunE (fun _ => false) (fun _ => true) [[itemA], [itemA]] true ⟨[], 0⟩
      = Except.error "store unavailable" := by
  obtain ⟨h1, h2, h3⟩ := store_errors
  exact ⟨h1 ⟨["a"], 0⟩ "a" (by decide),
    h2 (fun _ => true) false [itemA] ⟨[], 0⟩ ⟨itemA, by decide, by decide⟩,
    h3 (fun _ => true) true [itemA] [[itemA]] ⟨[], 0⟩ ⟨itemA, by decide, by decide⟩⟩

/-- Counterexample to C5 as stated: inserting an already-present link is
a fatal integrity error, and with the store unavailable the scheduler
run over two cycles dies with the store error instead of continuing to
the second cycle. -/
theorem store_errors_counterexample :
    ¬ (addPostE (fun _ => true) ⟨["a"], 0⟩ "a" = Except.ok ⟨["a"], 1⟩) ∧
    schedulerRunE (fun _ => false) (fun _ => true) [[itemA], [itemA]] true ⟨[], 0⟩
      = Except.error "store unavailable" := by
  refine ⟨?_, rfl⟩
  intro h
  simp [addPostE] at h
